import Mathlib

/-!
Verification of the `wisemaker/notebooks` repository: a shallow embedding of
the code cells of the naive-Bayes MNIST notebook, the linear-regression
notebook and the parameter-management notebook, together with theorems about
the claims of the specification.

Conventions of the embedding:
* float32 tensor arithmetic on the small integer counts of the training loop
  is exact, so counters and pixel data are modelled as rationals;
* the transcendental parts (`nd.log`, `nd.exp`) are modelled over the reals
  with `Real.log` / `Real.exp`;
* an MNIST sample after `transform` is a function `Fin 784 → ℚ` with a label
  `Fin 10`.
-/

namespace Notebooks

/-- One (transformed) MNIST sample: 784 pixel values and a digit label. -/
structure Sample where
  data : Fin 784 → ℚ
  label : Fin 10

/-- `transform` of the notebook: `nd.floor(data/128)` on a raw byte value,
modelled with natural-number (floor) division. -/
def transform (p : ℕ) : ℚ := ((p / 128 : ℕ) : ℚ)

/-- One iteration of the training loop of cell 1 of `naive-bayes.ipynb`:
`ycount[y] += 1; xcount[:,y] += data.reshape((784))`.  The accumulator is the
pair `(xcount, ycount)`. -/
def trainStep (acc : (Fin 784 → Fin 10 → ℚ) × (Fin 10 → ℚ)) (s : Sample) :
    (Fin 784 → Fin 10 → ℚ) × (Fin 10 → ℚ) :=
  (fun i y => if y = s.label then acc.1 i y + s.data i else acc.1 i y,
   fun y => if y = s.label then acc.2 y + 1 else acc.2 y)

/-- The training loop of cell 1, starting from the all-ones counters
`xcount = nd.ones((784,10))`, `ycount = nd.ones((10))`. -/
def trainCounts (ts : List Sample) : (Fin 784 → Fin 10 → ℚ) × (Fin 10 → ℚ) :=
  ts.foldl trainStep (fun _ _ => 1, fun _ => 1)

/-- `xcount[i, y]` after the training loop. -/
def xcount (ts : List Sample) (i : Fin 784) (y : Fin 10) : ℚ :=
  (trainCounts ts).1 i y

/-- `ycount[y]` after the training loop. -/
def ycount (ts : List Sample) (y : Fin 10) : ℚ :=
  (trainCounts ts).2 y

/-- `py = ycount / ycount.sum()`. -/
def py (ts : List Sample) (y : Fin 10) : ℚ :=
  ycount ts y / ∑ y' : Fin 10, ycount ts y'

/-- `px = xcount / ycount.reshape(1,10)` (elementwise broadcast division). -/
def px (ts : List Sample) (i : Fin 784) (y : Fin 10) : ℚ :=
  xcount ts i y / ycount ts y

/-- The number of training samples with label `y`. -/
def labelCount (ts : List Sample) (y : Fin 10) : ℕ :=
  ts.countP (fun s => decide (s.label = y))

/-- The sum of pixel `i` over the training samples with label `y`. -/
def pixelSum (ts : List Sample) (i : Fin 784) (y : Fin 10) : ℚ :=
  ((ts.filter (fun s => decide (s.label = y))).map (fun s => s.data i)).sum

/-- Concrete one-sample training set (pixels all set, label 3), used to
exercise the training-loop theorems. -/
def ts1 : List Sample := [⟨fun _ => 1, 3⟩]

/-- Concrete training set with one all-zero sample per digit class, so that
every smoothed pixel probability is 1/2. -/
def ts10 : List Sample := (List.finRange 10).map (fun y => ⟨fun _ => 0, y⟩)

/-- `logpx = nd.log(px)` of cell 4, over the reals. -/
noncomputable def logpx (ts : List Sample) (i : Fin 784) (y : Fin 10) : ℝ :=
  Real.log ((px ts i y : ℝ))

/-- `logpxneg = nd.log(1-px)` of cell 4. -/
noncomputable def logpxneg (ts : List Sample) (i : Fin 784) (y : Fin 10) : ℝ :=
  Real.log (1 - (px ts i y : ℝ))

/-- `logpy = nd.log(py)` of cell 4. -/
noncomputable def logpy (ts : List Sample) (y : Fin 10) : ℝ :=
  Real.log ((py ts y : ℝ))

/-- The unnormalized log posterior accumulated inside `bayespost`:
`logpost = logpy.copy(); logpost += (logpx * data + logpxneg * (1-data)).sum(0)`. -/
noncomputable def logpost (ts : List Sample) (x : Fin 784 → ℝ) (y : Fin 10) : ℝ :=
  logpy ts y + ∑ i : Fin 784, (logpx ts i y * x i + logpxneg ts i y * (1 - x i))

/-- `nd.max` / `.max()` on a length-10 array. -/
noncomputable def ndmax (v : Fin 10 → ℝ) : ℝ :=
  Finset.univ.sup' Finset.univ_nonempty v

/-- `bayespost` of cell 4: subtract the maximal log posterior, exponentiate and
normalize. -/
noncomputable def bayespost (ts : List Sample) (x : Fin 784 → ℝ) (y : Fin 10) : ℝ :=
  Real.exp (logpost ts x y - ndmax (logpost ts x)) /
    ∑ y' : Fin 10, Real.exp (logpost ts x y' - ndmax (logpost ts x))

/-- `bayespost` with the line `logpost -= nd.max(logpost)` removed. -/
noncomputable def bayespostNoShift (ts : List Sample) (x : Fin 784 → ℝ) (y : Fin 10) : ℝ :=
  Real.exp (logpost ts x y) /
    ∑ y' : Fin 10, Real.exp (logpost ts x y')

/-- The direct-product unnormalized posterior of cell 3:
`xprob = (px * data + (1-px) * (1-data)); xprob = xprob.prod(0) * py`. -/
noncomputable def xprob (ts : List Sample) (x : Fin 784 → ℝ) (y : Fin 10) : ℝ :=
  (∏ i : Fin 784, ((px ts i y : ℝ) * x i + (1 - (px ts i y : ℝ)) * (1 - x i)))
    * (py ts y : ℝ)

/-- Cell 3 normalization: `xprob = xprob / xprob.sum()`. -/
noncomputable def xprobPost (ts : List Sample) (x : Fin 784 → ℝ) (y : Fin 10) : ℝ :=
  xprob ts x y / ∑ y' : Fin 10, xprob ts x y'

/-- The test sample's pixel vector as fed to `bayespost`. -/
def realData (s : Sample) : Fin 784 → ℝ := fun i => (s.data i : ℝ)

open Classical in
/-- One iteration of the error-rate loop of cell 5, on the accumulator
`(ctr, err)`: `ctr += 1; if (post[y] < post.max()): err += 1`. -/
noncomputable def errStep (ts : List Sample) (acc : ℕ × ℕ) (s : Sample) : ℕ × ℕ :=
  (acc.1 + 1,
   if bayespost ts (realData s) s.label < ndmax (bayespost ts (realData s))
   then acc.2 + 1 else acc.2)

/-- The whole error-rate loop of cell 5, starting from `ctr = 0, err = 0`. -/
noncomputable def errLoop (ts test : List Sample) : ℕ × ℕ :=
  test.foldl (errStep ts) (0, 0)

/-- The printed value `err/ctr`. -/
noncomputable def errRate (ts test : List Sample) : ℝ :=
  ((errLoop ts test).2 : ℝ) / ((errLoop ts test).1 : ℝ)

open Classical in
/-- Specification-side count: the number of test samples whose true-label
posterior is strictly below the maximal posterior entry. -/
noncomputable def misclassifiedCount (ts test : List Sample) : ℕ :=
  test.countP (fun s =>
    decide (bayespost ts (realData s) s.label < ndmax (bayespost ts (realData s))))

/-- A weight tensor of the parameter-management notebook, as a heap cell. -/
abbrev NDArray : Type := ℕ × ℕ → ℚ

/-- Modelled from the spec: the external framework's parameter store, missing
from `src/`, as a heap from parameter-object identities to weight tensors.  A
`Parameter` handle is its heap identity; `nn.Dense(..., params=shared.params)`
gives the third layer the *same* identity as `shared`. -/
structure ParamHeap where
  store : ℕ → NDArray

/-- The weight parameter identities of the four layers of the shared-layer
network of cell 14 of `parameters.ipynb`: `net[1]` is `shared` and `net[2]`
was built with `params=shared.params`, so they carry the same identity. -/
def weightId : Fin 4 → ℕ := ![0, 1, 1, 2]

/-- `net[l].weight.data()`: read the weight tensor through layer `l`. -/
def weightData (h : ParamHeap) (l : Fin 4) : NDArray :=
  h.store (weightId l)

/-- `net[l].weight.data()[pos] = v`: in-place assignment through layer `l`. -/
def writeWeight (h : ParamHeap) (l : Fin 4) (pos : ℕ × ℕ) (v : ℚ) : ParamHeap :=
  ⟨fun pid =>
    if pid = weightId l then fun q => if q = pos then v else h.store pid q
    else h.store pid⟩

/-- A code cell, abstracted to the names it reads from earlier cells and the
names it defines or imports. -/
structure CCell where
  reads : List String
  writes : List String

/-- Check that each cell reads only names written by earlier cells, the
accumulator holding the names written so far. -/
def selfContainedAux : List String → List CCell → Bool
  | _, [] => true
  | env, c :: rest =>
    (c.reads.all fun n => decide (n ∈ env)) && selfContainedAux (env ++ c.writes) rest

/-- A notebook is self-contained when every cell reads only names defined or
imported by earlier cells of the same notebook. -/
def selfContained (nb : List CCell) : Bool :=
  selfContainedAux [] nb

/-- All names written by a list of cells. -/
def allWrites : List CCell → List String
  | [] => []
  | c :: rest => c.writes ++ allWrites rest

/-- A kernel environment: the values of the global names. -/
abbrev Env : Type := String → Option ℚ

/-- A cell together with its effect on the environment: the effect only
reads the cell's read names and only changes the cell's written names. -/
structure CellSem where
  cell : CCell
  run : Env → Env
  reads_det : ∀ e1 e2 : Env, (∀ n, n ∈ cell.reads → e1 n = e2 n) →
    ∀ n, n ∈ cell.writes → run e1 n = run e2 n
  frame : ∀ (e : Env) (n : String), n ∉ cell.writes → run e n = e n

/-- Execute the cells of one notebook in order on an environment. -/
def runNb (cells : List CellSem) (e : Env) : Env :=
  cells.foldl (fun e c => c.run e) e

/-- The code cells of the linear-regression notebook (`src/unnamed/part_000`).
The reads of a cell are the names it uses that it does not first bind itself. -/
def cellsLinReg : List CCell :=
  [⟨[], ["nd", "time", "a", "b"]⟩,
   ⟨["time", "nd", "a", "b"], ["start", "c", "i"]⟩,
   ⟨["time", "a", "b"], ["start", "d"]⟩,
   ⟨[], ["plt", "display", "nd", "math", "x", "parameters", "mu", "sigma", "p"]⟩]

/-- The code cells of `naive-bayes.ipynb`. -/
def cellsNaiveBayes : List CCell :=
  [⟨[], ["plt", "display", "mx", "nd", "np", "transform", "mnist_train",
         "mnist_test", "xcount", "ycount", "data", "label", "y", "py", "px"]⟩,
   ⟨["xcount", "py"], ["plt", "fig", "figarr", "i"]⟩,
   ⟨["mnist_test", "px", "py"], ["data", "label", "xprob"]⟩,
   ⟨["nd", "px", "py", "np", "plt", "mnist_test"],
    ["logpx", "logpxneg", "logpy", "bayespost", "fig", "figarr", "ctr",
     "data", "label", "x", "y", "post"]⟩,
   ⟨["mnist_test", "bayespost"], ["ctr", "err", "data", "label", "x", "y", "post"]⟩]

/-- The code cells of `parameters.ipynb`. -/
def cellsParameters : List CCell :=
  [⟨[], ["init", "nd", "nn", "net", "x"]⟩,
   ⟨["net"], []⟩,
   ⟨["net"], []⟩,
   ⟨["net"], []⟩,
   ⟨["net"], []⟩,
   ⟨["net"], []⟩,
   ⟨["net"], []⟩,
   ⟨["net"], []⟩,
   ⟨["nn", "x"], ["block1", "block2", "rgnet"]⟩,
   ⟨["rgnet"], []⟩,
   ⟨["rgnet"], []⟩,
   ⟨["net", "init"], []⟩,
   ⟨["net", "init"], []⟩,
   ⟨["net", "init"], []⟩,
   ⟨["init", "nd", "net"], ["MyInit"]⟩,
   ⟨["net"], []⟩,
   ⟨["nn", "nd"], ["net", "shared", "x"]⟩]

/-- A tiny concrete cell writing the single name "a", for exercising the
notebook-independence theorem. -/
def cellA : CCell := ⟨[], ["a"]⟩

/-- The effect of `cellA`: set "a" to 1. -/
def runA : Env → Env := fun e n => if n = "a" then some 1 else e n

/-- `cellA` with its effect and the conditions connecting them. -/
def semA : CellSem :=
  ⟨cellA, runA,
   fun _ _ _ n hn => by
     have hna : n = "a" := by simpa [cellA] using hn
     simp [runA, hna],
   fun e n hn => by
     have hna : n ≠ "a" := by simpa [cellA] using hn
     simp [runA, hna]⟩

theorem labelCount_cons (s : Sample) (ts : List Sample) (y : Fin 10) :
    labelCount (s :: ts) y = labelCount ts y + if s.label = y then 1 else 0 := by
  simp [labelCount, List.countP_cons]

theorem pixelSum_cons (s : Sample) (ts : List Sample) (i : Fin 784) (y : Fin 10) :
    pixelSum (s :: ts) i y
      = (if s.label = y then s.data i else 0) + pixelSum ts i y := by
  simp only [pixelSum, List.filter_cons]
  by_cases h : s.label = y
  · simp [h]
  · simp [h]

theorem foldl_trainStep_snd (ts : List Sample)
    (acc : (Fin 784 → Fin 10 → ℚ) × (Fin 10 → ℚ)) (y : Fin 10) :
    (ts.foldl trainStep acc).2 y = acc.2 y + (labelCount ts y : ℚ) := by
  induction ts generalizing acc with
  | nil => simp [labelCount]
  | cons s ts ih =>
    rw [List.foldl_cons, ih, labelCount_cons]
    show (if y = s.label then acc.2 y + 1 else acc.2 y) + _ = _
    by_cases h : s.label = y
    · rw [if_pos h.symm, if_pos h]
      push_cast
      ring
    · rw [if_neg (fun hy => h hy.symm), if_neg h]
      push_cast
      ring

theorem foldl_trainStep_fst (ts : List Sample)
    (acc : (Fin 784 → Fin 10 → ℚ) × (Fin 10 → ℚ)) (i : Fin 784) (y : Fin 10) :
    (ts.foldl trainStep acc).1 i y = acc.1 i y + pixelSum ts i y := by
  induction ts generalizing acc with
  | nil => simp [pixelSum]
  | cons s ts ih =>
    rw [List.foldl_cons, ih, pixelSum_cons]
    show (if y = s.label then acc.1 i y + s.data i else acc.1 i y) + _ = _
    by_cases h : s.label = y
    · rw [if_pos h.symm, if_pos h]
      ring
    · rw [if_neg (fun hy => h hy.symm), if_neg h]
      ring

theorem ycount_eq (ts : List Sample) (y : Fin 10) :
    ycount ts y = 1 + (labelCount ts y : ℚ) := by
  simpa [ycount, trainCounts] using foldl_trainStep_snd ts (fun _ _ => 1, fun _ => 1) y

theorem xcount_eq (ts : List Sample) (i : Fin 784) (y : Fin 10) :
    xcount ts i y = 1 + pixelSum ts i y := by
  simpa [xcount, trainCounts] using foldl_trainStep_fst ts (fun _ _ => 1, fun _ => 1) i y

theorem transform_mem (p : ℕ) (hp : p ≤ 255) : transform p = 0 ∨ transform p = 1 := by
  rcases Nat.lt_or_ge p 128 with h | h
  · left
    simp [transform, Nat.div_eq_of_lt h]
  · right
    have h1 : p / 128 = 1 := by omega
    simp [transform, h1]

theorem one_le_ycount (ts : List Sample) (y : Fin 10) : 1 ≤ ycount ts y := by
  rw [ycount_eq]
  have : (0 : ℚ) ≤ (labelCount ts y : ℚ) := Nat.cast_nonneg _
  linarith

theorem ycount_pos (ts : List Sample) (y : Fin 10) : 0 < ycount ts y :=
  lt_of_lt_of_le one_pos (one_le_ycount ts y)

theorem sum_ycount_pos (ts : List Sample) : 0 < ∑ y' : Fin 10, ycount ts y' :=
  Finset.sum_pos (fun y _ => ycount_pos ts y) Finset.univ_nonempty

theorem py_pos (ts : List Sample) (y : Fin 10) : 0 < py ts y :=
  div_pos (ycount_pos ts y) (sum_ycount_pos ts)

/-- C1: the naive Bayes estimation is frequency counting with Laplace
smoothing.  For a training set whose transformed pixel values lie in {0,1},
after the training loop `ycount[y]` is 1 plus the number of samples with label
`y`, `xcount[i,y]` is 1 plus the sum of binarized pixel `i` over the samples
with label `y`, `py` is `ycount` divided by the sum of `ycount`, and `px[i,y]`
is `xcount[i,y] / ycount[y]`. -/
theorem training_is_laplace_smoothed_counting (ts : List Sample)
    (hdata : ∀ s ∈ ts, ∀ i, s.data i = 0 ∨ s.data i = 1) :
    (∀ y, ycount ts y = 1 + (labelCount ts y : ℚ)) ∧
    (∀ i y, xcount ts i y = 1 + pixelSum ts i y) ∧
    (∀ y, py ts y = ycount ts y / ∑ y' : Fin 10, ycount ts y') ∧
    (∀ i y, px ts i y = xcount ts i y / ycount ts y) :=
  ⟨fun y => ycount_eq ts y, fun i y => xcount_eq ts i y,
   fun _ => rfl, fun _ _ => rfl⟩

theorem ts1_data_bool : ∀ s ∈ ts1, ∀ i, s.data i = 0 ∨ s.data i = 1 := by
  intro s hs i
  have hseq : s = ⟨fun _ => 1, 3⟩ := by simpa [ts1] using hs
  subst hseq
  right
  rfl

theorem training_is_laplace_smoothed_counting_witness :
    (∀ s ∈ ts1, ∀ i, s.data i = 0 ∨ s.data i = 1) ∧
    ((∀ y, ycount ts1 y = 1 + (labelCount ts1 y : ℚ)) ∧
     (∀ i y, xcount ts1 i y = 1 + pixelSum ts1 i y) ∧
     (∀ y, py ts1 y = ycount ts1 y / ∑ y' : Fin 10, ycount ts1 y') ∧
     (∀ i y, px ts1 i y = xcount ts1 i y / ycount ts1 y)) :=
  ⟨ts1_data_bool, training_is_laplace_smoothed_counting ts1 ts1_data_bool⟩

theorem pixelSum_nonneg (ts : List Sample) (i : Fin 784) (y : Fin 10)
    (h : ∀ s ∈ ts, 0 ≤ s.data i) : 0 ≤ pixelSum ts i y := by
  apply List.sum_nonneg
  intro q hq
  rcases List.mem_map.mp hq with ⟨s, hs, rfl⟩
  exact h s (List.mem_of_mem_filter hs)

theorem pixelSum_le_labelCount (ts : List Sample) (i : Fin 784) (y : Fin 10)
    (h : ∀ s ∈ ts, s.data i ≤ 1) : pixelSum ts i y ≤ (labelCount ts y : ℚ) := by
  have hlen : labelCount ts y
      = ((ts.filter (fun s => decide (s.label = y))).map (fun s => s.data i)).length := by
    simp [labelCount, List.countP_eq_length_filter]
  rw [hlen]
  have hb := List.sum_le_card_nsmul
    ((ts.filter (fun s => decide (s.label = y))).map (fun s => s.data i)) 1 ?_
  · simpa using hb
  · intro q hq
    rcases List.mem_map.mp hq with ⟨s, hs, rfl⟩
    exact h s (List.mem_of_mem_filter hs)

/-- C5: Laplace smoothing keeps the positive-side log defined.  For every
training set whose transformed pixel values lie in [0,1], every entry of `px`
is strictly positive and at most 1, so `nd.log(px)` is finite everywhere; and
there is a training set with pixel values in {0,1} on which some entry of `px`
equals 1, so no strict upper bound below 1 holds and `nd.log(1-px)` can be
infinite. -/
theorem px_pos_and_le_one :
    (∀ ts : List Sample, (∀ s ∈ ts, ∀ i, 0 ≤ s.data i ∧ s.data i ≤ 1) →
      ∀ i y, 0 < px ts i y ∧ px ts i y ≤ 1) ∧
    ∃ ts : List Sample, (∀ s ∈ ts, ∀ i, s.data i = 0 ∨ s.data i = 1) ∧
      ∃ i y, px ts i y = 1 := by
  constructor
  · intro ts h i y
    have h0 : 0 ≤ pixelSum ts i y :=
      pixelSum_nonneg ts i y (fun s hs => (h s hs i).1)
    have h1 : pixelSum ts i y ≤ (labelCount ts y : ℚ) :=
      pixelSum_le_labelCount ts i y (fun s hs => (h s hs i).2)
    have hyc : 0 < ycount ts y := ycount_pos ts y
    constructor
    · apply div_pos _ hyc
      rw [xcount_eq]
      linarith
    · show xcount ts i y / ycount ts y ≤ 1
      rw [div_le_one hyc, xcount_eq, ycount_eq]
      linarith
  · refine ⟨[], fun s hs => absurd hs (List.not_mem_nil s), 0, 0, ?_⟩
    show ((1 : ℚ) / 1) = 1
    norm_num

theorem px_pos_and_le_one_witness :
    (∀ s ∈ ts1, ∀ i, 0 ≤ s.data i ∧ s.data i ≤ 1) ∧
    (∀ i y, 0 < px ts1 i y ∧ px ts1 i y ≤ 1) := by
  have h : ∀ s ∈ ts1, ∀ i, (0 : ℚ) ≤ s.data i ∧ s.data i ≤ 1 := by
    intro s hs i
    have hseq : s = ⟨fun _ => 1, 3⟩ := by simpa [ts1] using hs
    subst hseq
    exact ⟨zero_le_one, le_refl 1⟩
  exact ⟨h, px_pos_and_le_one.1 ts1 h⟩

theorem exp_shift_div_sum (v : Fin 10 → ℝ) (c : ℝ) (y : Fin 10) :
    Real.exp (v y - c) / ∑ y' : Fin 10, Real.exp (v y' - c)
      = Real.exp (v y) / ∑ y' : Fin 10, Real.exp (v y') := by
  have hsum : ∑ y' : Fin 10, Real.exp (v y' - c)
      = (∑ y' : Fin 10, Real.exp (v y')) * Real.exp (-c) := by
    rw [Finset.sum_mul]
    refine Finset.sum_congr rfl (fun y' _ => ?_)
    rw [sub_eq_add_neg, Real.exp_add]
  rw [hsum, sub_eq_add_neg, Real.exp_add]
  exact mul_div_mul_right _ _ (Real.exp_ne_zero (-c))

/-- C4: subtracting a constant before exponentiating does not change the
normalized result; in particular the line `logpost -= nd.max(logpost)` in
`bayespost` leaves the returned normalized posterior unchanged. -/
theorem max_shift_preserves_posterior :
    (∀ (v : Fin 10 → ℝ) (c : ℝ) (y : Fin 10),
      Real.exp (v y - c) / ∑ y' : Fin 10, Real.exp (v y' - c)
        = Real.exp (v y) / ∑ y' : Fin 10, Real.exp (v y')) ∧
    ∀ (ts : List Sample) (x : Fin 784 → ℝ) (y : Fin 10),
      bayespost ts x y = bayespostNoShift ts x y :=
  ⟨exp_shift_div_sum, fun ts x y =>
    exp_shift_div_sum (logpost ts x) (ndmax (logpost ts x)) y⟩

theorem sum_exp_pos (v : Fin 10 → ℝ) : 0 < ∑ y' : Fin 10, Real.exp (v y') :=
  Finset.sum_pos (fun y' _ => Real.exp_pos (v y')) Finset.univ_nonempty

/-- C6: `bayespost` returns a probability distribution: for an input vector in
[0,1]^784 every entry of the returned array is nonnegative and the entries sum
to 1.  (Over the reals of this model every entry of `logpx`, `logpxneg` and
`logpy` is finite.) -/
theorem bayespost_isProbability (ts : List Sample) (x : Fin 784 → ℝ)
    (hx : ∀ i, 0 ≤ x i ∧ x i ≤ 1) :
    (∀ y, 0 ≤ bayespost ts x y) ∧ (∑ y : Fin 10, bayespost ts x y) = 1 := by
  have hS : 0 < ∑ y' : Fin 10, Real.exp (logpost ts x y' - ndmax (logpost ts x)) :=
    sum_exp_pos (fun y' => logpost ts x y' - ndmax (logpost ts x))
  constructor
  · intro y
    exact div_nonneg (Real.exp_pos _).le hS.le
  · show (∑ y : Fin 10,
      Real.exp (logpost ts x y - ndmax (logpost ts x)) /
        ∑ y' : Fin 10, Real.exp (logpost ts x y' - ndmax (logpost ts x))) = 1
    rw [← Finset.sum_div, div_self hS.ne']

theorem bayespost_isProbability_witness :
    (∀ i : Fin 784, 0 ≤ (fun _ : Fin 784 => (0 : ℝ)) i
      ∧ (fun _ : Fin 784 => (0 : ℝ)) i ≤ 1) ∧
    ((∀ y, 0 ≤ bayespost [] (fun _ => 0) y) ∧
     (∑ y : Fin 10, bayespost [] (fun _ => 0) y) = 1) :=
  ⟨fun _ => ⟨le_refl 0, zero_le_one⟩,
   bayespost_isProbability [] (fun _ => 0) (fun _ => ⟨le_refl 0, zero_le_one⟩)⟩

theorem exp_logpost_eq_xprob (ts : List Sample) (x : Fin 784 → ℝ)
    (hx : ∀ i, x i = 0 ∨ x i = 1)
    (hpx : ∀ i y, 0 < px ts i y ∧ px ts i y < 1) (y : Fin 10) :
    Real.exp (logpost ts x y) = xprob ts x y := by
  have hpy : (0 : ℝ) < (py ts y : ℝ) := by
    exact_mod_cast py_pos ts y
  have hfac : ∀ i : Fin 784,
      Real.exp (logpx ts i y * x i + logpxneg ts i y * (1 - x i))
        = (px ts i y : ℝ) * x i + (1 - (px ts i y : ℝ)) * (1 - x i) := by
    intro i
    have hp0 : (0 : ℝ) < (px ts i y : ℝ) := by exact_mod_cast (hpx i y).1
    have hp1 : (0 : ℝ) < 1 - (px ts i y : ℝ) := by
      have : (px ts i y : ℝ) < 1 := by exact_mod_cast (hpx i y).2
      linarith
    rcases hx i with h0 | h1
    · rw [h0]
      simp only [mul_zero, zero_add, sub_zero, mul_one]
      rw [logpxneg, Real.exp_log hp1]
    · rw [h1]
      simp only [mul_one, sub_self, mul_zero, add_zero]
      rw [logpx, Real.exp_log hp0]
  rw [logpost, Real.exp_add, logpy, Real.exp_log hpy, Real.exp_sum]
  rw [Finset.prod_congr rfl (fun i _ => hfac i)]
  rw [xprob]
  ring

/-- C2: on inputs with entries in {0,1}, with exact arithmetic and every entry
of `px` strictly between 0 and 1, the log-space `bayespost` of cell 4 equals
the normalized direct-product posterior of cell 3. -/
theorem bayespost_eq_direct_product (ts : List Sample) (x : Fin 784 → ℝ)
    (hx : ∀ i, x i = 0 ∨ x i = 1)
    (hpx : ∀ i y, 0 < px ts i y ∧ px ts i y < 1) :
    ∀ y, bayespost ts x y = xprobPost ts x y := by
  intro y
  rw [bayespost, exp_shift_div_sum (logpost ts x) (ndmax (logpost ts x)) y]
  rw [xprobPost, exp_logpost_eq_xprob ts x hx hpx y]
  congr 1
  exact Finset.sum_congr rfl (fun y' _ => exp_logpost_eq_xprob ts x hx hpx y')

theorem countP_finRange (y : Fin 10) :
    List.countP (fun z => decide (z = y)) (List.finRange 10) = 1 := by
  revert y
  decide

theorem px_ts10 (i : Fin 784) (y : Fin 10) : px ts10 i y = 1 / 2 := by
  have h1 : pixelSum ts10 i y = 0 := by
    apply List.sum_eq_zero
    intro q hq
    rcases List.mem_map.mp hq with ⟨s, hs, rfl⟩
    have hmem : s ∈ ts10 := List.mem_of_mem_filter hs
    rcases List.mem_map.mp hmem with ⟨z, _, rfl⟩
    rfl
  have h2 : labelCount ts10 y = 1 := by
    rw [labelCount, ts10, List.countP_map]
    exact countP_finRange y
  rw [px, xcount_eq, ycount_eq, h1, h2]
  norm_num

theorem px_ts10_bounds : ∀ (i : Fin 784) (y : Fin 10),
    0 < px ts10 i y ∧ px ts10 i y < 1 := by
  intro i y
  rw [px_ts10]
  norm_num

theorem bayespost_eq_direct_product_witness :
    (∀ i : Fin 784, (fun _ : Fin 784 => (0 : ℝ)) i = 0
      ∨ (fun _ : Fin 784 => (0 : ℝ)) i = 1) ∧
    (∀ (i : Fin 784) (y : Fin 10), 0 < px ts10 i y ∧ px ts10 i y < 1) ∧
    ∀ y, bayespost ts10 (fun _ => 0) y = xprobPost ts10 (fun _ => 0) y :=
  ⟨fun _ => Or.inl rfl, px_ts10_bounds,
   bayespost_eq_direct_product ts10 (fun _ => 0) (fun _ => Or.inl rfl) px_ts10_bounds⟩

theorem foldl_errStep (ts : List Sample) (test : List Sample) (acc : ℕ × ℕ) :
    test.foldl (errStep ts) acc
      = (acc.1 + test.length, acc.2 + misclassifiedCount ts test) := by
  induction test generalizing acc with
  | nil => simp [misclassifiedCount]
  | cons s l ih =>
    rw [List.foldl_cons, ih]
    simp only [misclassifiedCount, List.countP_cons, List.length_cons]
    rw [Prod.mk.injEq]
    constructor
    · show acc.1 + 1 + l.length = acc.1 + (l.length + 1)
      omega
    · show (errStep ts acc s).2 + _ = _
      by_cases hP : bayespost ts (realData s) s.label
          < ndmax (bayespost ts (realData s))
      · rw [errStep, if_pos hP]
        simp [hP]
        omega
      · rw [errStep, if_neg hP]
        simp [hP]

/-- C3: the classifier's error rate is computed correctly on the held-out test
set: the printed value `err/ctr` equals the number of test samples whose
true-label posterior is strictly below the maximum posterior entry (so a tie
counts as correct), divided by the number of test samples. -/
theorem error_rate_correct (ts test : List Sample) :
    errRate ts test = (misclassifiedCount ts test : ℝ) / (test.length : ℝ) := by
  rw [errRate, errLoop, foldl_errStep ts test (0, 0)]
  simp

/-- C7: tied parameters stay equal under mutation.  In the shared-layer
network `net[1].weight` and `net[2].weight` carry the same parameter identity,
so their data agree after initialization, and after an in-place assignment
through either handle they still agree and the written value is observable
through both handles. -/
theorem tied_weights_stay_equal :
    (∀ h : ParamHeap, weightData h 1 = weightData h 2) ∧
    ∀ (h : ParamHeap) (l : Fin 4) (pos : ℕ × ℕ) (v : ℚ), l = 1 ∨ l = 2 →
      weightData (writeWeight h l pos v) 1 = weightData (writeWeight h l pos v) 2 ∧
      weightData (writeWeight h l pos v) 1 pos = v ∧
      weightData (writeWeight h l pos v) 2 pos = v := by
  have hid : weightId 1 = weightId 2 := by decide
  constructor
  · intro h
    rw [weightData, weightData, hid]
  · intro h l pos v hl
    have hidl : weightId l = weightId 1 := by
      rcases hl with h1 | h2
      · rw [h1]
      · rw [h2, hid]
    have hval : weightData (writeWeight h l pos v) 1 pos = v := by
      simp [weightData, writeWeight, hidl]
    refine ⟨?_, hval, ?_⟩
    · rw [weightData, weightData, hid]
    · show weightData (writeWeight h l pos v) (2 : Fin 4) pos = v
      rw [weightData, hid.symm]
      exact hval

theorem tied_weights_stay_equal_witness :
    ((1 : Fin 4) = 1 ∨ (1 : Fin 4) = 2) ∧
    (weightData (writeWeight ⟨fun _ _ => 0⟩ 1 (0, 0) 100) 1
        = weightData (writeWeight ⟨fun _ _ => 0⟩ 1 (0, 0) 100) 2 ∧
      weightData (writeWeight ⟨fun _ _ => 0⟩ 1 (0, 0) 100) 1 (0, 0) = 100 ∧
      weightData (writeWeight ⟨fun _ _ => 0⟩ 1 (0, 0) 100) 2 (0, 0) = 100) :=
  ⟨Or.inl rfl,
   tied_weights_stay_equal.2 ⟨fun _ _ => 0⟩ 1 (0, 0) 100 (Or.inl rfl)⟩

theorem runNb_agree (cells : List CellSem) :
    ∀ (env : List String) (e1 e2 : Env),
      selfContainedAux env (cells.map (fun c => c.cell)) = true →
      (∀ n, n ∈ env → e1 n = e2 n) →
      ∀ n, n ∈ env ++ allWrites (cells.map (fun c => c.cell)) →
        runNb cells e1 n = runNb cells e2 n := by
  induction cells with
  | nil =>
    intro env e1 e2 _ hagree n hn
    have hmem : n ∈ env := by simpa [allWrites] using hn
    simpa [runNb] using hagree n hmem
  | cons c cells ih =>
    intro env e1 e2 hsc hagree n hn
    simp only [List.map_cons, selfContainedAux, Bool.and_eq_true] at hsc
    obtain ⟨hreads, hrest⟩ := hsc
    have hreads' : ∀ m ∈ c.cell.reads, m ∈ env := by
      intro m hm
      exact of_decide_eq_true (List.all_eq_true.mp hreads m hm)
    have hagree' : ∀ m, m ∈ env ++ c.cell.writes → c.run e1 m = c.run e2 m := by
      intro m hm
      by_cases hw : m ∈ c.cell.writes
      · exact c.reads_det e1 e2 (fun r hr => hagree r (hreads' r hr)) m hw
      · have hmenv : m ∈ env := by
          rcases List.mem_append.mp hm with h | h
          · exact h
          · exact absurd h hw
        rw [c.frame e1 m hw, c.frame e2 m hw]
        exact hagree m hmenv
    have hn' : n ∈ (env ++ c.cell.writes) ++ allWrites (cells.map (fun d => d.cell)) := by
      simpa [allWrites, List.append_assoc] using hn
    have := ih (env ++ c.cell.writes) (c.run e1) (c.run e2) hrest hagree' n hn'
    simpa [runNb] using this

/-- C8: no notebook depends on state produced by another.  Each of the three
notebooks with code cells is self-contained (every name a cell reads is
defined or imported by an earlier cell of the same notebook), and for any
self-contained notebook the value of every name it writes after execution is
independent of the initial environment, hence of whatever any other notebook
may have executed before. -/
theorem notebooks_independent :
    selfContained cellsLinReg = true ∧
    selfContained cellsNaiveBayes = true ∧
    selfContained cellsParameters = true ∧
    ∀ (cells : List CellSem) (e1 e2 : Env),
      selfContained (cells.map (fun c => c.cell)) = true →
      ∀ n, n ∈ allWrites (cells.map (fun c => c.cell)) →
        runNb cells e1 n = runNb cells e2 n := by
  refine ⟨by decide, by decide, by decide, ?_⟩
  intro cells e1 e2 hsc n hn
  exact runNb_agree cells [] e1 e2 hsc (fun m hm => absurd hm (List.not_mem_nil m)) n
    (by simpa using hn)

theorem notebooks_independent_witness :
    selfContained ([semA].map (fun c => c.cell)) = true ∧
    "a" ∈ allWrites ([semA].map (fun c => c.cell)) ∧
    runNb [semA] (fun _ => none) "a" = runNb [semA] (fun _ => some 0) "a" := by
  have hsc : selfContained ([semA].map (fun c => c.cell)) = true := by decide
  have hmem : "a" ∈ allWrites ([semA].map (fun c => c.cell)) := by decide
  exact ⟨hsc, hmem,
    notebooks_independent.2.2.2 [semA] (fun _ => none) (fun _ => some 0) hsc "a" hmem⟩

end Notebooks
